import Mathlib

/-!
# Verification of `generate_silhouette.py`

A shallow embedding of the silhouette generator: a corner-seeded BFS flood
fill classifies background pixels (status 1) of an RGBA pixel grid; every
other cell is rendered as opaque black, background as fully transparent.

Conventions of the embedding:
* A pixel is a quadruple of natural numbers (the source reads 8-bit RGBA
  channels from PIL; the embedding does not need the upper bound).
* `status[x][y]` from the source becomes a function `Pos → Nat`
  (`0` = unvisited, `1` = background; the value `2` mentioned in the
  source comment is never written by the code).
* The source compares `math.sqrt(S) < TOLERANCE` where `S` is the integer
  sum of squared RGB differences.  Since `sqrt` is monotone, `TOLERANCE`
  is the exact float `30.0`, and `S ≤ 3·255² = 195075` is exactly
  representable, the comparison holds iff `S < TOLERANCE² = 900`; the
  embedding therefore compares squared distances.
* The BFS is expressed with explicit fuel `w*h + 1`; each loop iteration
  pops one queue element, and (as proved below) each cell is enqueued at
  most once, so this fuel always drains the queue.
-/

/-- An RGBA pixel, as read from the decoded image. -/
structure Pixel where
  r : Nat
  g : Nat
  b : Nat
  a : Nat
deriving DecidableEq

/-- A grid coordinate `(x, y)`, mirroring `pixels[x, y]` in the source. -/
abbrev Pos := Nat × Nat

/-- A decoded RGBA image: dimensions plus the pixel access function
`pixels[x, y]` (only in-range coordinates are ever read by the code). -/
structure Grid where
  w : Nat
  h : Nat
  pix : Pos → Pixel

/-- Squared RGB distance (alpha ignored), the quantity under the square
root in `color_dist`.  `color_dist(c1, c2) < TOLERANCE` in the source is
equivalent to `color_dist_sq c1 c2 < TOLERANCE * TOLERANCE` (see the file
header). -/
def color_dist_sq (c1 c2 : Pixel) : Int :=
  ((c1.r : Int) - c2.r) ^ 2 + ((c1.g : Int) - c2.g) ^ 2 + ((c1.b : Int) - c2.b) ^ 2

/-- `TOLERANCE = 30`, the constant fixed inside `process`. -/
def TOLERANCE : Nat := 30

/-- Functional update of the status array: `status[x][y] = v`. -/
def setSt (st : Pos → Nat) (p : Pos) (v : Nat) : Pos → Nat :=
  fun q => if q = p then v else st q

/-- The source's bounds check `0 <= nx < w and 0 <= ny < h` on the signed
neighbour coordinates. -/
def inB (g : Grid) (n : Int × Int) : Prop :=
  0 ≤ n.1 ∧ n.1 < (g.w : Int) ∧ 0 ≤ n.2 ∧ n.2 < (g.h : Int)

instance (g : Grid) (n : Int × Int) : Decidable (inB g n) := by
  unfold inB; infer_instance

/-- Conversion of an in-bounds signed coordinate back to a grid position. -/
def toPos (n : Int × Int) : Pos := (n.1.toNat, n.2.toNat)

/-- Processing of one neighbour candidate inside the BFS loop body: bounds
check, unvisited check, then the alpha test (`curr_color[3] < 10`) and the
colour-similarity test against the current seed's reference colour; on
success the cell is marked background and appended to the queue. -/
def visit (g : Grid) (ref : Pixel) (sq : (Pos → Nat) × List Pos) (n : Int × Int) :
    (Pos → Nat) × List Pos :=
  if inB g n then
    if sq.1 (toPos n) = 0 then
      if (g.pix (toPos n)).a < 10 then
        (setSt sq.1 (toPos n) 1, sq.2 ++ [toPos n])
      else if color_dist_sq (g.pix (toPos n)) ref < (TOLERANCE : Int) * TOLERANCE then
        (setSt sq.1 (toPos n) 1, sq.2 ++ [toPos n])
      else sq
    else sq
  else sq

/-- The four neighbour candidates `(cx+dx, cy+dy)` for
`(dx,dy) ∈ [(1,0), (-1,0), (0,1), (0,-1)]`, in source order. -/
def candidates (c : Pos) : List (Int × Int) :=
  [((c.1 : Int) + 1, (c.2 : Int)), ((c.1 : Int) - 1, (c.2 : Int)),
   ((c.1 : Int), (c.2 : Int) + 1), ((c.1 : Int), (c.2 : Int) - 1)]

/-- One iteration of the BFS `while` loop, after popping `c`: examine the
four neighbours in order, threading status and queue. -/
def stepCell (g : Grid) (ref : Pixel) (st : Pos → Nat) (q : List Pos) (c : Pos) :
    (Pos → Nat) × List Pos :=
  (candidates c).foldl (visit g ref) (st, q)

/-- The BFS `while q:` loop with explicit fuel; pops from the front
(`popleft`) and `stepCell` appends to the back. -/
def bfsRun (g : Grid) (ref : Pixel) : Nat → (Pos → Nat) → List Pos → (Pos → Nat)
  | 0, st, _ => st
  | _ + 1, st, [] => st
  | fuel + 1, st, c :: q =>
      bfsRun g ref fuel (stepCell g ref st q c).1 (stepCell g ref st q c).2

/-- The four corner seeds `[(0,0), (w-1,0), (0,h-1), (w-1,h-1)]`.  (For
`w = 0` or `h = 0` the Python code raises an `IndexError` before using
them; `Nat` truncated subtraction is only exercised on that error path.) -/
def seeds (g : Grid) : List Pos :=
  [(0, 0), (g.w - 1, 0), (0, g.h - 1), (g.w - 1, g.h - 1)]

/-- One iteration of the seed loop: skip a seed that is already labelled,
otherwise sample the corner's own pixel as reference colour, mark it
background, and run the BFS from it. -/
def seedFill (g : Grid) (st : Pos → Nat) (s : Pos) : Pos → Nat :=
  if st s ≠ 0 then st
  else bfsRun g (g.pix s) (g.w * g.h + 1) (setSt st s 1) [s]

/-- The whole classification phase of `process`: all-zero status array,
then the four corner-seeded fills in order. -/
def classify (g : Grid) : Pos → Nat :=
  (seeds g).foldl (seedFill g) (fun _ => 0)

/-- The transparent output pixel `(0,0,0,0)`. -/
def transparentPx : Pixel := ⟨0, 0, 0, 0⟩

/-- The opaque black output pixel `(0,0,0,255)`. -/
def blackPx : Pixel := ⟨0, 0, 0, 255⟩

/-- The rendering loop: in-range cells with status 1 become transparent,
all other in-range cells opaque black.  Out-of-range coordinates keep the
`Image.new("RGBA", (w,h), (0,0,0,0))` fill value (they are never part of
the written file). -/
def processOut (g : Grid) : Pos → Pixel :=
  fun p =>
    if p.1 < g.w ∧ p.2 < g.h then
      if classify g p = 1 then transparentPx else blackPx
    else transparentPx

/-- In-range predicate for grid positions. -/
def inRange (g : Grid) (p : Pos) : Prop := p.1 < g.w ∧ p.2 < g.h

instance (g : Grid) (p : Pos) : Decidable (inRange g p) := by
  unfold inRange; infer_instance

/-- 4-connected (orthogonal) adjacency of grid positions. -/
def adj (c d : Pos) : Prop :=
  (d.1 = c.1 + 1 ∧ d.2 = c.2) ∨ (c.1 = d.1 + 1 ∧ d.2 = c.2) ∨
    (d.1 = c.1 ∧ d.2 = c.2 + 1) ∨ (d.1 = c.1 ∧ c.2 = d.2 + 1)

instance (c d : Pos) : Decidable (adj c d) := by
  unfold adj; infer_instance

/-- The absorption condition of the fill w.r.t. a reference colour: alpha
below 10, or squared RGB distance below `TOLERANCE²`. -/
def absorbable (g : Grid) (ref : Pixel) (p : Pos) : Prop :=
  (g.pix p).a < 10 ∨ color_dist_sq (g.pix p) ref < (TOLERANCE : Int) * TOLERANCE

instance (g : Grid) (ref : Pixel) (p : Pos) : Decidable (absorbable g ref p) := by
  unfold absorbable; infer_instance

/-- Every status cell is 0 (unvisited) or 1 (background). -/
def statusBinary (st : Pos → Nat) : Prop := ∀ p, st p = 0 ∨ st p = 1

/-- A cell all of whose absorbable in-range neighbours are marked. -/
def cellClosed (g : Grid) (ref : Pixel) (st : Pos → Nat) (p : Pos) : Prop :=
  ∀ d, adj p d → inRange g d → absorbable g ref d → st d = 1

/-- Number of in-range unvisited cells (the BFS termination measure). -/
def uc (g : Grid) (st : Pos → Nat) : Nat :=
  ((Finset.range g.w ×ˢ Finset.range g.h).filter (fun p => st p = 0)).card

/-- 4-connected chains whose every cell (endpoints included) satisfies
`P`; `Chain g P a b` means `b` is reachable from `a` through such cells. -/
inductive Chain (g : Grid) (P : Pos → Prop) : Pos → Pos → Prop where
  | refl : ∀ c, P c → Chain g P c c
  | tail : ∀ {a b d}, Chain g P a b → adj b d → P d → Chain g P a d

/-- Path predicate for the claim about a single corner `s`: in range and
near-transparent-or-similar to `s`'s own pixel (its reference colour). -/
def PRef (g : Grid) (s : Pos) (p : Pos) : Prop :=
  inRange g p ∧ absorbable g (g.pix s) p

instance (g : Grid) (s p : Pos) : Decidable (PRef g s p) := by
  unfold PRef; infer_instance

/-- Path predicate used for soundness: in range and near-transparent or
similar to at least one of the four corner pixels. -/
def anyAbs (g : Grid) (p : Pos) : Prop :=
  inRange g p ∧
    ((g.pix p).a < 10 ∨
      ∃ s ∈ seeds g, color_dist_sq (g.pix p) (g.pix s) < (TOLERANCE : Int) * TOLERANCE)

instance (g : Grid) (p : Pos) : Decidable (anyAbs g p) := by
  unfold anyAbs; infer_instance

/-- `p` is reachable from some corner via a chain of `anyAbs` cells. -/
def ReachAny (g : Grid) (p : Pos) : Prop :=
  ∃ s ∈ seeds g, Chain g (anyAbs g) s p

/-! ## The spec's configurable classifier

The specification describes tolerance, the near-zero alpha cutoff and the
metric as per-call parameters of the Region Classifier.  The following
definitions follow the spec's words and are compared with the source's
classifier (which hardcodes Euclidean / 30 / 10). -/

/-- The two distance metrics named by the spec. -/
inductive Metric where
  | manhattan : Metric
  | euclidean : Metric
deriving DecidableEq

/-- Manhattan (L1) RGB distance. -/
def manhattan_dist (c1 c2 : Pixel) : Int :=
  |(c1.r : Int) - c2.r| + |(c1.g : Int) - c2.g| + |(c1.b : Int) - c2.b|

/-- Modelled from the spec: `similar(a, b, tolerance)`, i.e.
`distance(a,b) < tolerance` for the chosen metric (for Euclidean, squared
on both sides, which is exact for integer data). -/
def metricLt (m : Metric) (tol : Nat) (c ref : Pixel) : Prop :=
  match m with
  | .manhattan => manhattan_dist c ref < (tol : Int)
  | .euclidean => color_dist_sq c ref < (tol : Int) * tol

instance (m : Metric) (tol : Nat) (c ref : Pixel) : Decidable (metricLt m tol c ref) := by
  unfold metricLt; cases m <;> infer_instance

/-- Modelled from the spec: the neighbour step of the classifier with the
three configuration knobs exposed. -/
def visitS (m : Metric) (tol cutoff : Nat) (g : Grid) (ref : Pixel)
    (sq : (Pos → Nat) × List Pos) (n : Int × Int) : (Pos → Nat) × List Pos :=
  if inB g n then
    if sq.1 (toPos n) = 0 then
      if (g.pix (toPos n)).a < cutoff then
        (setSt sq.1 (toPos n) 1, sq.2 ++ [toPos n])
      else if metricLt m tol (g.pix (toPos n)) ref then
        (setSt sq.1 (toPos n) 1, sq.2 ++ [toPos n])
      else sq
    else sq
  else sq

/-- Modelled from the spec: one BFS iteration of the configurable
classifier. -/
def stepCellS (m : Metric) (tol cutoff : Nat) (g : Grid) (ref : Pixel)
    (st : Pos → Nat) (q : List Pos) (c : Pos) : (Pos → Nat) × List Pos :=
  (candidates c).foldl (visitS m tol cutoff g ref) (st, q)

/-- Modelled from the spec: the BFS loop of the configurable classifier. -/
def bfsRunS (m : Metric) (tol cutoff : Nat) (g : Grid) (ref : Pixel) :
    Nat → (Pos → Nat) → List Pos → (Pos → Nat)
  | 0, st, _ => st
  | _ + 1, st, [] => st
  | fuel + 1, st, c :: q =>
      bfsRunS m tol cutoff g ref fuel
        (stepCellS m tol cutoff g ref st q c).1 (stepCellS m tol cutoff g ref st q c).2

/-- Modelled from the spec: one corner-seed fill of the configurable
classifier. -/
def seedFillS (m : Metric) (tol cutoff : Nat) (g : Grid) (st : Pos → Nat) (s : Pos) :
    Pos → Nat :=
  if st s ≠ 0 then st
  else bfsRunS m tol cutoff g (g.pix s) (g.w * g.h + 1) (setSt st s 1) [s]

/-- Modelled from the spec: `classify(grid)` with the metric, tolerance
and alpha cutoff as caller-supplied parameters. -/
def classifySpec (m : Metric) (tol cutoff : Nat) (g : Grid) : Pos → Nat :=
  (seeds g).foldl (seedFillS m tol cutoff g) (fun _ => 0)

/-! ## Ghost instrumentation: the list of enqueue events

`bfsRunT` runs the very same fill but also records, in order, every cell
appended to the queue (including each fired seed's initial enqueue).  Its
first component provably coincides with the uninstrumented run. -/

/-- The BFS loop with a ghost trace of enqueued cells: the cells appended
to the queue by `stepCell` are exactly the suffix past the popped-off
remainder `q`, i.e. `drop q.length`. -/
def bfsRunT (g : Grid) (ref : Pixel) :
    Nat → ((Pos → Nat) × List Pos) × List Pos → ((Pos → Nat) × List Pos) × List Pos
  | 0, s => s
  | _ + 1, ((st, []), t) => ((st, []), t)
  | fuel + 1, ((st, c :: q), t) =>
      bfsRunT g ref fuel
        (stepCell g ref st q c, t ++ (stepCell g ref st q c).2.drop q.length)

/-- One seed iteration with the ghost enqueue trace. -/
def seedFillT (g : Grid) (stt : (Pos → Nat) × List Pos) (s : Pos) :
    (Pos → Nat) × List Pos :=
  if stt.1 s ≠ 0 then stt
  else
    ((bfsRunT g (g.pix s) (g.w * g.h + 1) ((setSt stt.1 s 1, [s]), stt.2 ++ [s])).1.1,
      (bfsRunT g (g.pix s) (g.w * g.h + 1) ((setSt stt.1 s 1, [s]), stt.2 ++ [s])).2)

/-- The classification phase with the ghost enqueue trace. -/
def classifyT (g : Grid) : (Pos → Nat) × List Pos :=
  (seeds g).foldl (seedFillT g) (fun _ => 0, [])

/-! ## The I/O boundary of `process`

`process` wraps everything in `try: ... except Exception as e:
print(f"Error: {e}")`, so every invocation returns normally (`None`).
The external collaborators are modelled at the interface boundary:
`inp = none` models `Image.open`/decode raising, `inp = some g` a
successful decode to grid `g`, and `saveOk` whether `out.save` succeeds.
A zero-width or zero-height decoded image raises an `IndexError` at the
first seed access `status[0][0]`, before any BFS work. -/

/-- The exceptions that can escape the `try` block. -/
inductive PyExc where
  | loadError : PyExc
  | indexError : PyExc
  | saveError : PyExc
deriving DecidableEq

/-- Observable outcome of one `process` invocation: the image handed to
the (at most one) successful `out.save` call, the exception caught and
printed by the `except` clause (if any), and whether the call returned
normally to its caller. -/
structure RunResult where
  saved : Option Grid
  caught : Option PyExc
  returnedNormally : Bool

/-- The output image as a grid of the same dimensions. -/
def outputImage (g : Grid) : Grid := ⟨g.w, g.h, processOut g⟩

/-- The `try` block of `process`: load, classify, render, save;
propagates the first exception. -/
def processBody (inp : Option Grid) (saveOk : Bool) : Except PyExc Grid :=
  match inp with
  | none => .error .loadError
  | some g =>
    if g.w = 0 ∨ g.h = 0 then .error .indexError
    else if saveOk then .ok (outputImage g)
    else .error .saveError

/-- The whole of `process`: the `try` block plus the blanket
`except Exception` handler, which prints the error and falls through to a
normal return. -/
def processModel (inp : Option Grid) (saveOk : Bool) : RunResult :=
  match processBody inp saveOk with
  | .ok img => ⟨some img, none, true⟩
  | .error e => ⟨none, some e, true⟩

/-! ## Concrete grids used as witnesses and counterexamples -/

/-- Shorthand pixel constructor. -/
def px (r g b a : Nat) : Pixel := ⟨r, g, b, a⟩

/-- Opaque white. -/
def whiteO : Pixel := px 255 255 255 255

/-- 3×3 grid whose corner `(2,0)` is fully transparent red: it is absorbed
by the `(0,0)` corner's fill (alpha rule) before its own seed turn, so its
seed is skipped and its reference colour is never sampled; the adjacent
opaque red `(2,1)` then stays unvisited. -/
def g3 : Grid :=
  ⟨3, 3, fun p =>
    if p = (2, 0) then px 255 0 0 0
    else if p = (2, 1) then px 255 0 0 255
    else if p = (1, 1) then px 0 0 0 255
    else whiteO⟩

/-- 2×1 grid: white corner, neighbour at squared RGB distance 800
(Euclidean distance √800 ≈ 28.3 < 30) but Manhattan distance 40 ≥ 30. -/
def g21 : Grid :=
  ⟨2, 1, fun p => if p = (1, 0) then px 235 235 255 255 else whiteO⟩

/-- 3×3 grid: white corners, opaque black edge-midpoints, fully
transparent centre — an enclosed transparent hole touching no corner. -/
def g3h : Grid :=
  ⟨3, 3, fun p =>
    if p = (1, 1) then px 255 255 255 0
    else if p = (1, 0) ∨ p = (0, 1) ∨ p = (2, 1) ∨ p = (1, 2) then px 0 0 0 255
    else whiteO⟩

/-- 3×1 grid: white corners, middle pixel `(235,235,255,255)` at squared
RGB distance 800 from white (Euclidean √800 ≈ 28.3 < 30) but Manhattan
distance 40 ≥ 30 — it separates the two metrics at tolerance 30. -/
def g31 : Grid :=
  ⟨3, 1, fun p => if p = (1, 0) then px 235 235 255 255 else whiteO⟩

/-- Degenerate 1×1 grid holding a single opaque black pixel. -/
def gB : Grid := ⟨1, 1, fun _ => px 0 0 0 255⟩

/-- 1×1 white grid with the default pixel function everywhere. -/
def g1 : Grid := ⟨1, 1, fun _ => whiteO⟩

/-- 1×1 grid equal to `g1` on the single in-range cell but differing
out of range. -/
def g1b : Grid := ⟨1, 1, fun p => if p = (0, 0) then whiteO else px 255 0 0 255⟩

/-! ## Basic helper lemmas -/

/-- Invariant preservation along a `List.foldl`. -/
theorem foldl_rec {α β : Type} {motive : α → Prop} (f : α → β → α) :
    ∀ (l : List β) (a : α), motive a →
      (∀ x b, b ∈ l → motive x → motive (f x b)) → motive (l.foldl f a) := by
  intro l
  induction l with
  | nil => intro a ha _; exact ha
  | cons b bs ih =>
      intro a ha hstep
      exact ih (f a b) (hstep a b (List.mem_cons_self b bs) ha)
        (fun x c hc hx => hstep x c (List.mem_cons_of_mem b hc) hx)

/-- `List.foldl` only depends on the extensional behaviour of the
folded function. -/
theorem foldl_ext {α β : Type} (f f' : α → β → α) (hf : ∀ a b, f a b = f' a b) :
    ∀ (l : List β) (a : α), l.foldl f a = l.foldl f' a := by
  intro l
  induction l with
  | nil => intro a; rfl
  | cons b bs ih => intro a; simp only [List.foldl]; rw [hf]; exact ih _

/-- An in-bounds signed candidate denotes an in-range position. -/
theorem inB_inRange {g : Grid} {n : Int × Int} (hb : inB g n) : inRange g (toPos n) := by
  unfold inB at hb
  unfold inRange toPos
  omega

/-- Case analysis on one neighbour visit: either nothing happens, or an
in-bounds unvisited absorbable cell is marked and enqueued. -/
theorem visit_cases (g : Grid) (ref : Pixel) (sq : (Pos → Nat) × List Pos) (n : Int × Int) :
    visit g ref sq n = sq ∨
      (inB g n ∧ sq.1 (toPos n) = 0 ∧ absorbable g ref (toPos n) ∧
        visit g ref sq n = (setSt sq.1 (toPos n) 1, sq.2 ++ [toPos n])) := by
  unfold visit
  by_cases hb : inB g n
  · rw [if_pos hb]
    by_cases h0 : sq.1 (toPos n) = 0
    · rw [if_pos h0]
      by_cases ha : (g.pix (toPos n)).a < 10
      · rw [if_pos ha]; exact Or.inr ⟨hb, h0, Or.inl ha, rfl⟩
      · rw [if_neg ha]
        by_cases hc : color_dist_sq (g.pix (toPos n)) ref < (TOLERANCE : Int) * TOLERANCE
        · rw [if_pos hc]; exact Or.inr ⟨hb, h0, Or.inr hc, rfl⟩
        · rw [if_neg hc]; exact Or.inl rfl
    · rw [if_neg h0]; exact Or.inl rfl
  · rw [if_neg hb]; exact Or.inl rfl

/-- A visit never unmarks a background cell. -/
theorem visit_mono {g : Grid} {ref : Pixel} {sq : (Pos → Nat) × List Pos} {n : Int × Int}
    {p : Pos} (hp : sq.1 p = 1) : (visit g ref sq n).1 p = 1 := by
  rcases visit_cases g ref sq n with h | ⟨_, _, _, h⟩
  · rw [h]; exact hp
  · rw [h]
    unfold setSt
    by_cases hpn : p = toPos n
    · simp [hpn]
    · simp [hpn, hp]

/-- A visit preserves binarity of the status array. -/
theorem visit_values {g : Grid} {ref : Pixel} {sq : (Pos → Nat) × List Pos} {n : Int × Int}
    (hv : statusBinary sq.1) : statusBinary (visit g ref sq n).1 := by
  rcases visit_cases g ref sq n with h | ⟨_, _, _, h⟩
  · rw [h]; exact hv
  · rw [h]
    intro p
    unfold setSt
    by_cases hpn : p = toPos n
    · simp [hpn]
    · simp [hpn]; exact hv p

/-- After visiting an in-bounds absorbable candidate, the candidate's cell
is marked (whether it was already marked or gets marked now). -/
theorem visit_sets {g : Grid} {ref : Pixel} {sq : (Pos → Nat) × List Pos} {n : Int × Int}
    (hv : statusBinary sq.1) (hb : inB g n) (habs : absorbable g ref (toPos n)) :
    (visit g ref sq n).1 (toPos n) = 1 := by
  rcases hv (toPos n) with h0 | h1
  · unfold visit
    rw [if_pos hb, if_pos h0]
    rcases habs with ha | hc
    · rw [if_pos ha]; simp [setSt]
    · by_cases ha : (g.pix (toPos n)).a < 10
      · rw [if_pos ha]; simp [setSt]
      · rw [if_neg ha, if_pos hc]; simp [setSt]
  · exact visit_mono h1

/-- An in-bounds member of `candidates c` denotes a neighbour of `c`. -/
theorem mem_candidates_adj {g : Grid} {c : Pos} {n : Int × Int}
    (hn : n ∈ candidates c) (hb : inB g n) : adj c (toPos n) := by
  unfold candidates at hn
  unfold inB at hb
  simp only [List.mem_cons, List.not_mem_nil, or_false] at hn
  rcases hn with h | h | h | h <;> subst h <;> unfold adj toPos <;> dsimp only at hb ⊢ <;> omega

/-- The unvisited count never exceeds the grid size. -/
theorem uc_le (g : Grid) (st : Pos → Nat) : uc g st ≤ g.w * g.h := by
  unfold uc
  calc ((Finset.range g.w ×ˢ Finset.range g.h).filter (fun p => st p = 0)).card
      ≤ (Finset.range g.w ×ˢ Finset.range g.h).card := Finset.card_filter_le _ _
    _ = g.w * g.h := by rw [Finset.card_product, Finset.card_range, Finset.card_range]

/-- Marking an in-range unvisited cell decrements the unvisited count. -/
theorem uc_setSt {g : Grid} {st : Pos → Nat} {p : Pos}
    (hin : inRange g p) (h0 : st p = 0) : uc g (setSt st p 1) + 1 = uc g st := by
  have hmem : p ∈ (Finset.range g.w ×ˢ Finset.range g.h).filter (fun q => st q = 0) := by
    simp only [Finset.mem_filter, Finset.mem_product, Finset.mem_range]
    exact ⟨⟨hin.1, hin.2⟩, h0⟩
  have heq : (Finset.range g.w ×ˢ Finset.range g.h).filter (fun q => setSt st p 1 q = 0) =
      ((Finset.range g.w ×ˢ Finset.range g.h).filter (fun q => st q = 0)).erase p := by
    ext q
    simp only [Finset.mem_filter, Finset.mem_erase, Finset.mem_product, Finset.mem_range, setSt]
    by_cases hqp : q = p
    · simp [hqp]
    · simp [hqp]
  have hpos : 0 < ((Finset.range g.w ×ˢ Finset.range g.h).filter (fun q => st q = 0)).card :=
    Finset.card_pos.mpr ⟨p, hmem⟩
  unfold uc
  rw [heq, Finset.card_erase_of_mem hmem]
  omega

/-! ## One BFS iteration: the `stepCell` specification -/

/-- Full specification of one BFS iteration on the popped cell `c`: the
queue is extended by a duplicate-free list of previously unvisited,
in-range, absorbable neighbours of `c`, which become marked; no other cell
changes; binarity is preserved; and the termination measure
`|queue| + unvisited` does not increase. -/
theorem stepCell_spec (g : Grid) (ref : Pixel) (st : Pos → Nat) (q : List Pos) (c : Pos)
    (hv : statusBinary st) :
    ∃ ext : List Pos,
      (stepCell g ref st q c).2 = q ++ ext ∧
      ext.Nodup ∧
      (∀ p ∈ ext, st p = 0 ∧ (stepCell g ref st q c).1 p = 1 ∧ inRange g p ∧
        adj c p ∧ absorbable g ref p) ∧
      (∀ p, (stepCell g ref st q c).1 p = st p ∨ p ∈ ext) ∧
      statusBinary (stepCell g ref st q c).1 ∧
      (stepCell g ref st q c).2.length + uc g (stepCell g ref st q c).1 ≤
        q.length + uc g st := by
  unfold stepCell
  have main : ∀ sq : (Pos → Nat) × List Pos,
      (∃ ext : List Pos,
        sq.2 = q ++ ext ∧ ext.Nodup ∧
        (∀ p ∈ ext, st p = 0 ∧ sq.1 p = 1 ∧ inRange g p ∧ adj c p ∧ absorbable g ref p) ∧
        (∀ p, sq.1 p = st p ∨ p ∈ ext) ∧
        statusBinary sq.1 ∧
        sq.2.length + uc g sq.1 ≤ q.length + uc g st) →
      ∀ n ∈ candidates c,
      (∃ ext : List Pos,
        (visit g ref sq n).2 = q ++ ext ∧ ext.Nodup ∧
        (∀ p ∈ ext, st p = 0 ∧ (visit g ref sq n).1 p = 1 ∧ inRange g p ∧ adj c p ∧
          absorbable g ref p) ∧
        (∀ p, (visit g ref sq n).1 p = st p ∨ p ∈ ext) ∧
        statusBinary (visit g ref sq n).1 ∧
        (visit g ref sq n).2.length + uc g (visit g ref sq n).1 ≤ q.length + uc g st) := by
    rintro sq ⟨ext, hq, hnd, hmem, hother, hbin, hmeas⟩ n hn
    rcases visit_cases g ref sq n with hid | ⟨hb, h0, habs, heq⟩
    · exact ⟨ext, by rw [hid]; exact hq, hnd, fun p hp => by rw [hid]; exact hmem p hp,
        fun p => by rw [hid]; exact hother p, by rw [hid]; exact hbin,
        by rw [hid]; exact hmeas⟩
    · have hnotext : toPos n ∉ ext := fun hmemn => by
        have := (hmem (toPos n) hmemn).2.1
        rw [this] at h0; exact absurd h0 (by simp)
      have hst0 : st (toPos n) = 0 := by
        rcases hother (toPos n) with h | h
        · rw [← h]; exact h0
        · exact absurd h hnotext
      have hinr : inRange g (toPos n) := inB_inRange hb
      refine ⟨ext ++ [toPos n], ?_, ?_, ?_, ?_, ?_, ?_⟩
      · rw [heq]; simp [hq]
      · simp [List.nodup_append, hnd, hnotext]
      · intro p hp
        rw [List.mem_append, List.mem_singleton] at hp
        rcases hp with hp | hp
        · obtain ⟨hp0, hp1, hpr, hpa, hpb⟩ := hmem p hp
          refine ⟨hp0, ?_, hpr, hpa, hpb⟩
          rw [heq]
          unfold setSt
          by_cases hpn : p = toPos n
          · simp [hpn]
          · simp [hpn, hp1]
        · subst hp
          refine ⟨hst0, ?_, hinr, mem_candidates_adj hn hb, habs⟩
          rw [heq]; simp [setSt]
      · intro p
        rw [heq]
        unfold setSt
        by_cases hpn : p = toPos n
        · right; simp [hpn]
        · simp only [hpn, if_false]
          rcases hother p with h | h
          · left; exact h
          · right; simp [h]
      · rw [heq]
        intro p
        unfold setSt
        by_cases hpn : p = toPos n
        · simp [hpn]
        · simp [hpn]; exact hbin p
      · rw [heq]
        have hdec : uc g (setSt sq.1 (toPos n) 1) + 1 = uc g sq.1 := uc_setSt hinr h0
        simp only [List.length_append, List.length_cons, List.length_nil]
        omega
  have init : ∃ ext : List Pos,
      ((st, q) : (Pos → Nat) × List Pos).2 = q ++ ext ∧ ext.Nodup ∧
      (∀ p ∈ ext, st p = 0 ∧ ((st, q) : (Pos → Nat) × List Pos).1 p = 1 ∧ inRange g p ∧
        adj c p ∧ absorbable g ref p) ∧
      (∀ p, ((st, q) : (Pos → Nat) × List Pos).1 p = st p ∨ p ∈ ext) ∧
      statusBinary ((st, q) : (Pos → Nat) × List Pos).1 ∧
      ((st, q) : (Pos → Nat) × List Pos).2.length + uc g ((st, q) : (Pos → Nat) × List Pos).1 ≤
        q.length + uc g st := by
    exact ⟨[], by simp, List.nodup_nil, by simp, fun p => Or.inl rfl, hv, le_refl _⟩
  exact foldl_rec (visit g ref) (candidates c) (st, q) init
    (fun x b hb hx => main x hx b hb)

/-- `stepCell` never unmarks a cell. -/
theorem stepCell_mono {g : Grid} {ref : Pixel} {st : Pos → Nat} {q : List Pos} {c p : Pos}
    (hp : st p = 1) : (stepCell g ref st q c).1 p = 1 := by
  unfold stepCell
  exact foldl_rec (motive := fun sq => sq.1 p = 1) (visit g ref) (candidates c) (st, q) hp
    (fun x b _ hx => visit_mono hx)

/-- `stepCell` preserves binarity. -/
theorem stepCell_values {g : Grid} {ref : Pixel} {st : Pos → Nat} {q : List Pos} {c : Pos}
    (hv : statusBinary st) : statusBinary (stepCell g ref st q c).1 := by
  unfold stepCell
  exact foldl_rec (motive := fun sq => statusBinary sq.1) (visit g ref) (candidates c) (st, q)
    hv (fun x b _ hx => visit_values hx)

/-- After processing the popped cell `c`, every absorbable in-range
neighbour of `c` is marked. -/
theorem stepCell_closes {g : Grid} {ref : Pixel} {st : Pos → Nat} {q : List Pos} {c : Pos}
    (hv : statusBinary st) : cellClosed g ref (stepCell g ref st q c).1 c := by
  intro d hadj hin habs
  have hstep : stepCell g ref st q c =
      visit g ref (visit g ref (visit g ref (visit g ref (st, q)
        ((c.1 : Int) + 1, (c.2 : Int))) ((c.1 : Int) - 1, (c.2 : Int)))
        ((c.1 : Int), (c.2 : Int) + 1)) ((c.1 : Int), (c.2 : Int) - 1) := rfl
  have hv1 : statusBinary (visit g ref (st, q) ((c.1 : Int) + 1, (c.2 : Int))).1 :=
    visit_values hv
  have hv2 : statusBinary (visit g ref (visit g ref (st, q) ((c.1 : Int) + 1, (c.2 : Int)))
      ((c.1 : Int) - 1, (c.2 : Int))).1 := visit_values hv1
  have hv3 : statusBinary (visit g ref (visit g ref (visit g ref (st, q)
      ((c.1 : Int) + 1, (c.2 : Int))) ((c.1 : Int) - 1, (c.2 : Int)))
      ((c.1 : Int), (c.2 : Int) + 1)).1 := visit_values hv2
  rw [hstep]
  unfold inRange at hin
  rcases hadj with ⟨h1, h2⟩ | ⟨h1, h2⟩ | ⟨h1, h2⟩ | ⟨h1, h2⟩
  · -- d = (c.1 + 1, c.2): first candidate
    have hb : inB g ((c.1 : Int) + 1, (c.2 : Int)) := by unfold inB; dsimp only; omega
    have hd : toPos ((c.1 : Int) + 1, (c.2 : Int)) = d := by
      unfold toPos; dsimp only; cases d; simp at h1 h2 ⊢; omega
    apply visit_mono; apply visit_mono; apply visit_mono
    rw [← hd] at habs ⊢
    exact visit_sets hv hb habs
  · -- d = (c.1 - 1, c.2): second candidate
    have hb : inB g ((c.1 : Int) - 1, (c.2 : Int)) := by unfold inB; dsimp only; omega
    have hd : toPos ((c.1 : Int) - 1, (c.2 : Int)) = d := by
      unfold toPos; dsimp only; cases d; simp at h1 h2 ⊢; omega
    apply visit_mono; apply visit_mono
    rw [← hd] at habs ⊢
    exact visit_sets hv1 hb habs
  · -- d = (c.1, c.2 + 1): third candidate
    have hb : inB g ((c.1 : Int), (c.2 : Int) + 1) := by unfold inB; dsimp only; omega
    have hd : toPos ((c.1 : Int), (c.2 : Int) + 1) = d := by
      unfold toPos; dsimp only; cases d; simp at h1 h2 ⊢; omega
    apply visit_mono
    rw [← hd] at habs ⊢
    exact visit_sets hv2 hb habs
  · -- d = (c.1, c.2 - 1): fourth candidate
    have hb : inB g ((c.1 : Int), (c.2 : Int) - 1) := by unfold inB; dsimp only; omega
    have hd : toPos ((c.1 : Int), (c.2 : Int) - 1) = d := by
      unfold toPos; dsimp only; cases d; simp at h1 h2 ⊢; omega
    rw [← hd] at habs ⊢
    exact visit_sets hv3 hb habs

/-! ## The BFS loop: monotonicity, soundness, completeness -/

/-- The BFS never unmarks a background cell. -/
theorem bfsRun_mono {g : Grid} {ref : Pixel} :
    ∀ (fuel : Nat) (st : Pos → Nat) (q : List Pos) (p : Pos),
      st p = 1 → bfsRun g ref fuel st q p = 1 := by
  intro fuel
  induction fuel with
  | zero => intro st q p hp; exact hp
  | succ n ih =>
      intro st q p hp
      cases q with
      | nil => exact hp
      | cons c rest => exact ih _ _ p (stepCell_mono hp)

/-- The BFS preserves binarity of the status array. -/
theorem bfsRun_values {g : Grid} {ref : Pixel} :
    ∀ (fuel : Nat) (st : Pos → Nat) (q : List Pos),
      statusBinary st → statusBinary (bfsRun g ref fuel st q) := by
  intro fuel
  induction fuel with
  | zero => intro st q hv; exact hv
  | succ n ih =>
      intro st q hv
      cases q with
      | nil => exact hv
      | cons c rest => exact ih _ _ (stepCell_values hv)

/-- Soundness of one fill: if `R` holds for all initially marked cells and
is closed under absorbing an adjacent in-range cell, then `R` holds for
every cell marked by the BFS. -/
theorem bfsRun_sound {g : Grid} {ref : Pixel} {R : Pos → Prop}
    (hR : ∀ c d, R c → adj c d → inRange g d → absorbable g ref d → R d) :
    ∀ (fuel : Nat) (st : Pos → Nat) (q : List Pos),
      statusBinary st → (∀ p ∈ q, st p = 1) → (∀ p, st p = 1 → R p) →
      ∀ p, bfsRun g ref fuel st q p = 1 → R p := by
  intro fuel
  induction fuel with
  | zero => intro st q _ _ hmark p hp; exact hmark p hp
  | succ n ih =>
      intro st q hv hq hmark p hp
      cases q with
      | nil => exact hmark p hp
      | cons c rest =>
          obtain ⟨ext, hq2, _, hext, hother, hbin, _⟩ := stepCell_spec g ref st rest c hv
          have hRc : R c := hmark c (hq c (List.mem_cons_self c rest))
          refine ih _ _ hbin ?_ ?_ p hp
          · intro x hx
            rw [hq2] at hx
            rcases List.mem_append.mp hx with hx | hx
            · exact stepCell_mono (hq x (List.mem_cons_of_mem c hx))
            · exact (hext x hx).2.1
          · intro x hx
            rcases hother x with h | h
            · exact hmark x (by rw [← h]; exact hx)
            · obtain ⟨_, _, hxr, hxa, hxb⟩ := hext x h
              exact hR c x hRc hxa hxr hxb

/-- Completeness scaffolding: with enough fuel (the measure
`|queue| + unvisited`), the BFS drains the queue and the final marking is
closed under absorption, provided every marked cell is either still
queued or already closed. -/
theorem bfsRun_closed {g : Grid} {ref : Pixel} :
    ∀ (fuel : Nat) (st : Pos → Nat) (q : List Pos),
      statusBinary st → (∀ p ∈ q, st p = 1) →
      (∀ p, st p = 1 → p ∈ q ∨ cellClosed g ref st p) →
      q.length + uc g st ≤ fuel →
      ∀ p, bfsRun g ref fuel st q p = 1 → cellClosed g ref (bfsRun g ref fuel st q) p := by
  intro fuel
  induction fuel with
  | zero =>
      intro st q _ _ hinv hle p hp
      have hq : q = [] := List.length_eq_zero.mp (by omega)
      subst hq
      rcases hinv p hp with h | h
      · exact absurd h (List.not_mem_nil p)
      · exact h
  | succ n ih =>
      intro st q hv hq hinv hle p hp
      cases q with
      | nil =>
          rcases hinv p hp with h | h
          · exact absurd h (List.not_mem_nil p)
          · exact h
      | cons c rest =>
          obtain ⟨ext, hq2, _, hext, hother, hbin, hmeas⟩ := stepCell_spec g ref st rest c hv
          refine ih _ _ hbin ?_ ?_ ?_ p hp
          · intro x hx
            rw [hq2] at hx
            rcases List.mem_append.mp hx with hx | hx
            · exact stepCell_mono (hq x (List.mem_cons_of_mem c hx))
            · exact (hext x hx).2.1
          · intro x hx
            rcases hother x with h | h
            · have hx1 : st x = 1 := by rw [← h]; exact hx
              rcases hinv x hx1 with hm | hm
              · rcases List.mem_cons.mp hm with hm | hm
                · subst hm
                  right
                  exact stepCell_closes hv
                · left; rw [hq2]; exact List.mem_append_left ext hm
              · right
                intro d hadj hdr hdab
                exact stepCell_mono (hm d hadj hdr hdab)
            · left; rw [hq2]; exact List.mem_append_right rest h
          · have : (c :: rest).length + uc g st = rest.length + uc g st + 1 := by
              simp [List.length_cons]; omega
            omega

/-! ## Seed loop and chain lemmas -/

/-- A seed fill never unmarks a background cell. -/
theorem seedFill_mono {g : Grid} {st : Pos → Nat} {s p : Pos}
    (hp : st p = 1) : seedFill g st s p = 1 := by
  unfold seedFill
  by_cases hs : st s ≠ 0
  · rw [if_pos hs]; exact hp
  · rw [if_neg hs]
    apply bfsRun_mono
    unfold setSt
    by_cases hps : p = s
    · simp [hps]
    · simp [hps, hp]

/-- A seed fill preserves binarity. -/
theorem seedFill_values {g : Grid} {st : Pos → Nat} {s : Pos}
    (hv : statusBinary st) : statusBinary (seedFill g st s) := by
  unfold seedFill
  by_cases hs : st s ≠ 0
  · rw [if_pos hs]; exact hv
  · rw [if_neg hs]
    apply bfsRun_values
    intro p
    unfold setSt
    by_cases hps : p = s
    · simp [hps]
    · simp [hps]; exact hv p

/-- After its own seed iteration, a corner is marked background (either it
already was, or it is marked now). -/
theorem seedFill_sets {g : Grid} {st : Pos → Nat} {s : Pos}
    (hv : statusBinary st) : seedFill g st s s = 1 := by
  unfold seedFill
  by_cases hs : st s ≠ 0
  · rw [if_pos hs]
    rcases hv s with h | h
    · exact absurd h hs
    · exact h
  · rw [if_neg hs]
    apply bfsRun_mono
    simp [setSt]
/-- All four corner seeds are in range on a nonempty grid. -/
theorem seeds_inRange {g : Grid} (hw : 0 < g.w) (hh : 0 < g.h) :
    ∀ s ∈ seeds g, inRange g s := by
  intro s hs
  unfold seeds at hs
  simp only [List.mem_cons, List.not_mem_nil, or_false] at hs
  rcases hs with h | h | h | h <;> subst h <;> unfold inRange <;> dsimp only <;> omega

/-- The first cell of a chain satisfies the chain predicate. -/
theorem chain_start {g : Grid} {P : Pos → Prop} {a b : Pos}
    (hc : Chain g P a b) : P a := by
  induction hc with
  | refl h => exact h
  | tail _ _ _ ih => exact ih

/-- The last cell of a chain satisfies the chain predicate. -/
theorem chain_last {g : Grid} {P : Pos → Prop} {a b : Pos}
    (hc : Chain g P a b) : P b := by
  cases hc with
  | refl h => exact h
  | tail _ _ hd => exact hd

/-- In a closed marking, everything chain-reachable from a marked cell
through in-range absorbable cells is marked. -/
theorem chain_marked {g : Grid} {ref : Pixel} {st : Pos → Nat}
    (hclosed : ∀ p, st p = 1 → cellClosed g ref st p) {a b : Pos} (ha : st a = 1)
    (hc : Chain g (fun p => inRange g p ∧ absorbable g ref p) a b) : st b = 1 := by
  induction hc with
  | refl _ => exact ha
  | tail _ hadj hd ih => exact hclosed _ ih _ hadj hd.1 hd.2

/-- The classification consists of the four seed fills in order. -/
theorem classify_eq (g : Grid) :
    classify g =
      seedFill g (seedFill g (seedFill g (seedFill g (fun _ => 0) (0, 0))
        (g.w - 1, 0)) (0, g.h - 1)) (g.w - 1, g.h - 1) := rfl

/-- The final status array is binary. -/
theorem classify_values (g : Grid) : statusBinary (classify g) := by
  unfold classify
  exact foldl_rec (motive := statusBinary) (seedFill g) (seeds g) (fun _ => 0)
    (fun p => Or.inl rfl) (fun x b _ hx => seedFill_values hx)

/-- Completeness for the first corner: any cell chain-reachable from
`(0,0)` through in-range cells that are near-transparent or similar to the
`(0,0)` pixel is classified background. -/
theorem classify_chain0 {g : Grid} {p : Pos}
    (hc : Chain g (PRef g (0, 0)) (0, 0) p) : classify g p = 1 := by
  have h00 : PRef g (0, 0) (0, 0) := chain_start hc
  have hchain : Chain g (fun q => inRange g q ∧ absorbable g (g.pix (0, 0)) q) (0, 0) p := by
    have : PRef g (0, 0) = fun q => inRange g q ∧ absorbable g (g.pix (0, 0)) q := rfl
    rw [← this]; exact hc
  rw [classify_eq]
  apply seedFill_mono; apply seedFill_mono; apply seedFill_mono
  unfold seedFill
  have hz : ¬ ((fun _ : Pos => 0) (0, 0) ≠ 0) := by simp
  rw [if_neg hz]
  set st0 : Pos → Nat := setSt (fun _ => 0) (0, 0) 1 with hst0
  have hv0 : statusBinary st0 := by
    intro q
    rw [hst0]
    unfold setSt
    by_cases hq : q = (0, 0)
    · rw [if_pos hq]; right; rfl
    · rw [if_neg hq]; left; rfl
  have hq0 : ∀ x ∈ [((0, 0) : Pos)], st0 x = 1 := by
    intro x hx
    simp only [List.mem_singleton] at hx
    subst hx
    simp [hst0, setSt]
  have hinv0 : ∀ x, st0 x = 1 → x ∈ [((0, 0) : Pos)] ∨ cellClosed g (g.pix (0, 0)) st0 x := by
    intro x hx
    left
    rw [hst0] at hx
    unfold setSt at hx
    by_cases hx0 : x = (0, 0)
    · simp [hx0]
    · rw [if_neg hx0] at hx
      simp at hx
  have hfuel : ([((0, 0) : Pos)]).length + uc g st0 ≤ g.w * g.h + 1 := by
    have := uc_le g st0
    simp only [List.length_singleton]
    omega
  have hclosed := bfsRun_closed (g.w * g.h + 1) st0 [(0, 0)] hv0 hq0 hinv0 hfuel
  have hmark0 : bfsRun g (g.pix (0, 0)) (g.w * g.h + 1) st0 [(0, 0)] (0, 0) = 1 :=
    bfsRun_mono _ _ _ _ (by simp [hst0, setSt])
  exact chain_marked hclosed hmark0 hchain

/-- Soundness of the whole classification: every background cell is
chain-reachable from one of the four corners through in-range cells that
are near-transparent or similar to at least one corner pixel. -/
theorem classify_sound {g : Grid} (hw : 0 < g.w) (hh : 0 < g.h) (p : Pos)
    (hp : classify g p = 1) : ReachAny g p := by
  unfold classify at hp
  have main : statusBinary ((seeds g).foldl (seedFill g) (fun _ => 0)) ∧
      ∀ q, (seeds g).foldl (seedFill g) (fun _ => 0) q = 1 → ReachAny g q := by
    apply foldl_rec
      (motive := fun st => statusBinary st ∧ ∀ q, st q = 1 → ReachAny g q)
      (seedFill g) (seeds g) (fun _ => 0)
    · exact ⟨fun q => Or.inl rfl, fun q hq => absurd hq (by simp)⟩
    · rintro st s hs ⟨hv, hr⟩
      refine ⟨seedFill_values hv, ?_⟩
      unfold seedFill
      by_cases hguard : st s ≠ 0
      · rw [if_pos hguard]; exact hr
      · rw [if_neg hguard]
        have hsr : inRange g s := seeds_inRange hw hh s hs
        have hanys : anyAbs g s := by
          refine ⟨hsr, Or.inr ⟨s, hs, ?_⟩⟩
          unfold color_dist_sq
          simp
          decide
        have hRs : ReachAny g s := ⟨s, hs, Chain.refl s hanys⟩
        intro q hq
        refine bfsRun_sound ?_ (g.w * g.h + 1) (setSt st s 1) [s] ?_ ?_ ?_ q hq
        · rintro c d ⟨sc, hsc, hchain⟩ hadj hdr hdab
          refine ⟨sc, hsc, Chain.tail hchain hadj ⟨hdr, ?_⟩⟩
          rcases hdab with ha | hab
          · exact Or.inl ha
          · exact Or.inr ⟨s, hs, hab⟩
        · intro x
          unfold setSt
          by_cases hxs : x = s <;> simp [hxs]
          exact hv x
        · intro x hx
          simp only [List.mem_singleton] at hx
          subst hx
          simp [setSt]
        · intro x hx
          unfold setSt at hx
          by_cases hxs : x = s
          · subst hxs; exact hRs
          · simp [hxs] at hx
            exact hr x hx
  exact main.2 p hp

/-! ## Congruence: the classifier reads only in-range pixels -/

/-- One visit depends only on the dimensions and the in-range pixels. -/
theorem visit_congr {g₁ g₂ : Grid} (hw : g₁.w = g₂.w) (hh : g₁.h = g₂.h)
    (hpix : ∀ p, inRange g₁ p → g₁.pix p = g₂.pix p) (ref : Pixel)
    (sq : (Pos → Nat) × List Pos) (n : Int × Int) :
    visit g₁ ref sq n = visit g₂ ref sq n := by
  unfold visit
  by_cases hb : inB g₁ n
  · have hb₂ : inB g₂ n := by unfold inB at hb ⊢; rw [← hw, ← hh]; exact hb
    rw [if_pos hb, if_pos hb₂, hpix (toPos n) (inB_inRange hb)]
  · have hb₂ : ¬ inB g₂ n := by unfold inB at hb ⊢; rw [← hw, ← hh]; exact hb
    rw [if_neg hb, if_neg hb₂]

/-- One BFS iteration depends only on the dimensions and in-range pixels. -/
theorem stepCell_congr {g₁ g₂ : Grid} (hw : g₁.w = g₂.w) (hh : g₁.h = g₂.h)
    (hpix : ∀ p, inRange g₁ p → g₁.pix p = g₂.pix p) (ref : Pixel)
    (st : Pos → Nat) (q : List Pos) (c : Pos) :
    stepCell g₁ ref st q c = stepCell g₂ ref st q c := by
  unfold stepCell
  exact foldl_ext _ _ (fun a b => visit_congr hw hh hpix ref a b) (candidates c) (st, q)

/-- The BFS loop depends only on the dimensions and in-range pixels. -/
theorem bfsRun_congr {g₁ g₂ : Grid} (hw : g₁.w = g₂.w) (hh : g₁.h = g₂.h)
    (hpix : ∀ p, inRange g₁ p → g₁.pix p = g₂.pix p) (ref : Pixel) :
    ∀ (fuel : Nat) (st : Pos → Nat) (q : List Pos),
      bfsRun g₁ ref fuel st q = bfsRun g₂ ref fuel st q := by
  intro fuel
  induction fuel with
  | zero => intro st q; rfl
  | succ n ih =>
      intro st q
      cases q with
      | nil => rfl
      | cons c rest =>
          show bfsRun g₁ ref n (stepCell g₁ ref st rest c).1 (stepCell g₁ ref st rest c).2 =
            bfsRun g₂ ref n (stepCell g₂ ref st rest c).1 (stepCell g₂ ref st rest c).2
          rw [stepCell_congr hw hh hpix, ih]

/-- `List.foldl` congruence needing agreement only on list members. -/
theorem foldl_ext_mem {α β : Type} (f f' : α → β → α) :
    ∀ l : List β, (∀ a b, b ∈ l → f a b = f' a b) →
      ∀ a, l.foldl f a = l.foldl f' a := by
  intro l
  induction l with
  | nil => intro _ a; rfl
  | cons b bs ih =>
      intro hf a
      simp only [List.foldl]
      rw [hf a b (List.mem_cons_self b bs)]
      exact ih (fun x c hc => hf x c (List.mem_cons_of_mem b hc)) _

/-- The whole classification depends only on the dimensions and the
in-range pixels of the decoded grid. -/
theorem classify_congr {g₁ g₂ : Grid} (hw : 0 < g₁.w) (hh : 0 < g₁.h)
    (hew : g₁.w = g₂.w) (heh : g₁.h = g₂.h)
    (hpix : ∀ p, inRange g₁ p → g₁.pix p = g₂.pix p) :
    classify g₁ = classify g₂ := by
  unfold classify
  have hseeds : seeds g₁ = seeds g₂ := by unfold seeds; rw [hew, heh]
  rw [← hseeds]
  have hfill : ∀ st (s : Pos), s ∈ seeds g₁ → seedFill g₁ st s = seedFill g₂ st s := by
    intro st s hs
    unfold seedFill
    by_cases hguard : st s ≠ 0
    · rw [if_pos hguard, if_pos hguard]
    · rw [if_neg hguard, if_neg hguard,
        hpix s (seeds_inRange hw hh s hs), ← hew, ← heh,
        bfsRun_congr hew heh hpix]
  exact foldl_ext_mem (seedFill g₁) (seedFill g₂) (seeds g₁)
    (fun a b hb => hfill a b hb) (fun _ => 0)

/-! ## The source classifier is the spec classifier at (Euclidean, 30, 10) -/

/-- One visit of the configurable classifier, instantiated at Euclidean
metric, tolerance 30 and cutoff 10, is the source's visit. -/
theorem visitS_euclid (g : Grid) (ref : Pixel) (sq : (Pos → Nat) × List Pos)
    (n : Int × Int) : visitS Metric.euclidean TOLERANCE 10 g ref sq n = visit g ref sq n := by
  unfold visitS visit
  exact if_congr Iff.rfl
    (if_congr Iff.rfl (if_congr Iff.rfl rfl (if_congr Iff.rfl rfl rfl)) rfl) rfl

/-- The instantiated BFS loop is the source's BFS loop. -/
theorem bfsRunS_euclid (g : Grid) (ref : Pixel) :
    ∀ (fuel : Nat) (st : Pos → Nat) (q : List Pos),
      bfsRunS Metric.euclidean TOLERANCE 10 g ref fuel st q = bfsRun g ref fuel st q := by
  intro fuel
  induction fuel with
  | zero => intro st q; rfl
  | succ n ih =>
      intro st q
      cases q with
      | nil => rfl
      | cons c rest =>
          have hstep : stepCellS Metric.euclidean TOLERANCE 10 g ref st rest c =
              stepCell g ref st rest c := by
            unfold stepCellS stepCell
            exact foldl_ext _ _ (fun a b => visitS_euclid g ref a b) (candidates c) (st, rest)
          show bfsRunS Metric.euclidean TOLERANCE 10 g ref n
              (stepCellS Metric.euclidean TOLERANCE 10 g ref st rest c).1
              (stepCellS Metric.euclidean TOLERANCE 10 g ref st rest c).2 =
            bfsRun g ref n (stepCell g ref st rest c).1 (stepCell g ref st rest c).2
          rw [hstep, ih]

/-- The instantiated configurable classifier is the source's classifier. -/
theorem classifySpec_euclid (g : Grid) :
    classifySpec Metric.euclidean TOLERANCE 10 g = classify g := by
  unfold classifySpec classify
  apply foldl_ext_mem
  intro st s _
  unfold seedFillS seedFill
  by_cases hguard : st s ≠ 0
  · rw [if_pos hguard, if_pos hguard]
  · rw [if_neg hguard, if_neg hguard, bfsRunS_euclid]

/-! ## The ghost enqueue trace -/

/-- Projection: the instrumented BFS computes the same status array as the
uninstrumented BFS. -/
theorem bfsRunT_fst (g : Grid) (ref : Pixel) :
    ∀ (fuel : Nat) (st : Pos → Nat) (q t : List Pos),
      (bfsRunT g ref fuel ((st, q), t)).1.1 = bfsRun g ref fuel st q := by
  intro fuel
  induction fuel with
  | zero => intro st q t; rfl
  | succ n ih =>
      intro st q t
      cases q with
      | nil => rfl
      | cons c rest => exact ih _ _ _

/-- The trace invariant: through the instrumented BFS the enqueue log
stays duplicate-free, and each logged cell is in range and marked. -/
theorem bfsRunT_trace (g : Grid) (ref : Pixel) :
    ∀ (fuel : Nat) (st : Pos → Nat) (q t : List Pos),
      statusBinary st → (∀ p ∈ q, st p = 1) → t.Nodup →
      (∀ p ∈ t, st p = 1 ∧ inRange g p) →
      (bfsRunT g ref fuel ((st, q), t)).2.Nodup ∧
        (∀ p ∈ (bfsRunT g ref fuel ((st, q), t)).2,
          (bfsRunT g ref fuel ((st, q), t)).1.1 p = 1 ∧ inRange g p) := by
  intro fuel
  induction fuel with
  | zero =>
      intro st q t _ _ hnd ht
      exact ⟨hnd, fun p hp => ⟨(ht p hp).1, (ht p hp).2⟩⟩
  | succ n ih =>
      intro st q t hv hq hnd ht
      cases q with
      | nil => exact ⟨hnd, fun p hp => ⟨(ht p hp).1, (ht p hp).2⟩⟩
      | cons c rest =>
          obtain ⟨ext, hq2, hextnd, hext, _, hbin, _⟩ := stepCell_spec g ref st rest c hv
          have hdrop : (stepCell g ref st rest c).2.drop rest.length = ext := by
            rw [hq2]; exact List.drop_left rest ext
          have hunf : bfsRunT g ref (n + 1) ((st, c :: rest), t) =
              bfsRunT g ref n ((stepCell g ref st rest c),
                t ++ (stepCell g ref st rest c).2.drop rest.length) := rfl
          rw [hunf, hdrop]
          have hqmark : ∀ p ∈ (stepCell g ref st rest c).2,
              (stepCell g ref st rest c).1 p = 1 := by
            intro x hx
            rw [hq2] at hx
            rcases List.mem_append.mp hx with hx | hx
            · exact stepCell_mono (hq x (List.mem_cons_of_mem c hx))
            · exact (hext x hx).2.1
          have hndnew : (t ++ ext).Nodup := by
            rw [List.nodup_append]
            refine ⟨hnd, hextnd, ?_⟩
            intro x hxt hxe
            have h1 : st x = 1 := (ht x hxt).1
            have h0 : st x = 0 := (hext x hxe).1
            rw [h1] at h0
            exact absurd h0 (by simp)
          have htnew : ∀ p ∈ t ++ ext, (stepCell g ref st rest c).1 p = 1 ∧ inRange g p := by
            intro x hx
            rcases List.mem_append.mp hx with hx | hx
            · exact ⟨stepCell_mono (ht x hx).1, (ht x hx).2⟩
            · exact ⟨(hext x hx).2.1, (hext x hx).2.2.1⟩
          have hpair : stepCell g ref st rest c =
              ((stepCell g ref st rest c).1, (stepCell g ref st rest c).2) := rfl
          rw [hpair]
          exact ih (stepCell g ref st rest c).1 (stepCell g ref st rest c).2 (t ++ ext)
            hbin hqmark hndnew htnew

/-- Projection: the instrumented classification computes the same status
array as the real classification. -/
theorem classifyT_fst (g : Grid) : (classifyT g).1 = classify g := by
  unfold classifyT classify
  have main : ∀ (l : List Pos) (st : Pos → Nat) (t : List Pos),
      (l.foldl (seedFillT g) (st, t)).1 = l.foldl (seedFill g) st := by
    intro l
    induction l with
    | nil => intro st t; rfl
    | cons s rest ih =>
        intro st t
        simp only [List.foldl]
        have hone : (seedFillT g (st, t) s).1 = seedFill g st s := by
          unfold seedFillT seedFill
          by_cases hguard : st s ≠ 0
          · rw [if_pos hguard, if_pos hguard]
          · rw [if_neg hguard, if_neg hguard]
            exact bfsRunT_fst g (g.pix s) _ _ _ _
        have hpair : seedFillT g (st, t) s =
            ((seedFillT g (st, t) s).1, (seedFillT g (st, t) s).2) := rfl
        rw [hpair, hone, ih]
  exact main (seeds g) (fun _ => 0) []

/-- The enqueue trace of the whole classification is duplicate-free and
consists of in-range cells. -/
theorem classifyT_trace (g : Grid) (hw : 0 < g.w) (hh : 0 < g.h) :
    (classifyT g).2.Nodup ∧ ∀ p ∈ (classifyT g).2, inRange g p := by
  unfold classifyT
  have main : statusBinary (classifyT g).1 ∧ (classifyT g).2.Nodup ∧
      ∀ p ∈ (classifyT g).2, (classifyT g).1 p = 1 ∧ inRange g p := by
    unfold classifyT
    apply foldl_rec
      (motive := fun stt : (Pos → Nat) × List Pos => statusBinary stt.1 ∧ stt.2.Nodup ∧
        ∀ p ∈ stt.2, stt.1 p = 1 ∧ inRange g p)
      (seedFillT g) (seeds g) (fun _ => 0, [])
    · exact ⟨fun p => Or.inl rfl, List.nodup_nil, fun p hp => absurd hp (List.not_mem_nil p)⟩
    · rintro ⟨st, t⟩ s hs ⟨hv, hnd, ht⟩
      unfold seedFillT
      by_cases hguard : st s ≠ 0
      · rw [if_pos hguard]
        exact ⟨hv, hnd, ht⟩
      · rw [if_neg hguard]
        simp only [ne_eq, not_not] at hguard
        have hsr : inRange g s := seeds_inRange hw hh s hs
        have hnots : s ∉ t := fun hmem => by
          have h2 : st s = 1 := (ht s hmem).1
          rw [hguard] at h2
          exact absurd h2 (by simp)
        have hrun := bfsRunT_trace g (g.pix s) (g.w * g.h + 1) (setSt st s 1) [s] (t ++ [s])
          (by
            intro p
            unfold setSt
            by_cases hps : p = s
            · rw [if_pos hps]; right; rfl
            · rw [if_neg hps]; exact hv p)
          (by
            intro p hp
            simp only [List.mem_singleton] at hp
            subst hp
            simp [setSt])
          (by
            rw [List.nodup_append]
            exact ⟨hnd, List.nodup_singleton s, by
              intro x hxt hxs
              rw [List.mem_singleton] at hxs
              subst hxs
              exact hnots hxt⟩)
          (by
            intro p hp
            rcases List.mem_append.mp hp with hp | hp
            · refine ⟨?_, (ht p hp).2⟩
              unfold setSt
              by_cases hps : p = s
              · rw [if_pos hps]
              · rw [if_neg hps]; exact (ht p hp).1
            · rw [List.mem_singleton] at hp
              subst hp
              exact ⟨by simp [setSt], hsr⟩)
        refine ⟨?_, hrun.1, ?_⟩
        · dsimp only
          rw [bfsRunT_fst]
          apply bfsRun_values
          intro p
          unfold setSt
          by_cases hps : p = s
          · rw [if_pos hps]; right; rfl
          · rw [if_neg hps]; exact hv p
        · intro p hp
          exact ⟨(hrun.2 p hp).1, (hrun.2 p hp).2⟩
  exact ⟨main.2.1, fun p hp => (main.2.2 p hp).2⟩

/-- A duplicate-free list of in-range cells has at most `w·h` members. -/
theorem nodup_inRange_length {g : Grid} {t : List Pos}
    (hnd : t.Nodup) (hin : ∀ p ∈ t, inRange g p) : t.length ≤ g.w * g.h := by
  have hsub : t.toFinset ⊆ Finset.range g.w ×ˢ Finset.range g.h := by
    intro p hp
    rw [List.mem_toFinset] at hp
    have := hin p hp
    unfold inRange at this
    rw [Finset.mem_product, Finset.mem_range, Finset.mem_range]
    exact ⟨this.1, this.2⟩
  calc t.length = t.toFinset.card := (List.toFinset_card_of_nodup hnd).symm
    _ ≤ (Finset.range g.w ×ˢ Finset.range g.h).card := Finset.card_le_card hsub
    _ = g.w * g.h := by rw [Finset.card_product, Finset.card_range, Finset.card_range]

/-- Every corner seed ends up classified background: the first seed starts
on an all-zero status, and each later seed is either still unvisited at
its turn (and marks itself) or was already marked; marks are never
removed. -/
theorem classify_seeds (g : Grid) : ∀ s ∈ seeds g, classify g s = 1 := by
  intro s hs
  have hv0 : statusBinary (fun _ : Pos => (0 : Nat)) := fun p => Or.inl rfl
  have hv1 : statusBinary (seedFill g (fun _ => 0) (0, 0)) := seedFill_values hv0
  have hv2 : statusBinary (seedFill g (seedFill g (fun _ => 0) (0, 0)) (g.w - 1, 0)) :=
    seedFill_values hv1
  have hv3 : statusBinary (seedFill g (seedFill g (seedFill g (fun _ => 0) (0, 0))
      (g.w - 1, 0)) (0, g.h - 1)) := seedFill_values hv2
  unfold seeds at hs
  simp only [List.mem_cons, List.not_mem_nil, or_false] at hs
  rw [classify_eq]
  rcases hs with h | h | h | h <;> subst h
  · exact seedFill_mono (seedFill_mono (seedFill_mono (seedFill_sets hv0)))
  · exact seedFill_mono (seedFill_mono (seedFill_sets hv1))
  · exact seedFill_mono (seedFill_sets hv2)
  · exact seedFill_sets hv3

/-! ## Claim theorems -/

/-- Claim C1 (counterexample): the claim promises that every pixel
reachable from *some* corner via a 4-connected path of near-transparent
or corner-similar cells is rendered transparent.  In `g3`, corner `(2,0)`
is fully transparent red: the path `(2,0) → (2,1)` consists of a
near-transparent cell and a cell at RGB distance 0 from that corner's
own (reference) colour, yet `(2,1)` is rendered opaque black — the corner
was absorbed by the `(0,0)` fill (alpha rule), its seed was skipped, and
its reference colour never used. -/
theorem C1_counterexample :
    ((2, 0) : Pos) ∈ seeds g3 ∧
      Chain g3 (PRef g3 (2, 0)) (2, 0) (2, 1) ∧
      processOut g3 (2, 1) = blackPx ∧ processOut g3 (2, 1) ≠ transparentPx := by
  refine ⟨by decide, ?_, by decide, by decide⟩
  exact Chain.tail (Chain.refl (2, 0) (by decide)) (by decide) (by decide)

/-- Claim C1 (amended): every pixel reachable from the first corner
`(0,0)` via a 4-connected path of in-range pixels that are each
near-transparent or colour-similar to the `(0,0)` corner's reference
colour is classified `Background` and rendered transparent.  (For the
other three corners the guarantee only holds when their seed actually
fires; see the counterexample.) -/
theorem C1_amended (g : Grid) (p : Pos) (hc : Chain g (PRef g (0, 0)) (0, 0) p) :
    classify g p = 1 ∧ processOut g p = transparentPx := by
  have h1 := classify_chain0 hc
  refine ⟨h1, ?_⟩
  unfold processOut
  by_cases hr : p.1 < g.w ∧ p.2 < g.h
  · rw [if_pos hr, if_pos h1]
  · rw [if_neg hr]

/-- Claim C1 (witness): in the 2×1 grid `g21` the cell `(1,0)` is reached
from corner `(0,0)` through a similar-colour path and is transparent. -/
theorem C1_amended_witness :
    classify g21 (1, 0) = 1 ∧ processOut g21 (1, 0) = transparentPx :=
  C1_amended g21 (1, 0)
    (Chain.tail (Chain.refl (0, 0) (by decide)) (by decide) (by decide))

/-- Claim C2: every in-range cell not absorbed by the corner-seeded fill
is rendered opaque black, and (soundness) a cell is rendered transparent
only if it is chain-reachable from one of the four corners through
in-range cells that are near-transparent or colour-similar to some corner
pixel — hence every enclosed region unreachable from the corners (e.g. a
background-coloured or transparent hole ringed by subject pixels) is
filled in as subject mass. -/
theorem C2_unabsorbed_black (g : Grid) (hw : 0 < g.w) (hh : 0 < g.h) (p : Pos)
    (hp : inRange g p) :
    (classify g p ≠ 1 → processOut g p = blackPx) ∧
    (processOut g p = transparentPx → ReachAny g p) := by
  have hp2 : p.1 < g.w ∧ p.2 < g.h := hp
  constructor
  · intro hne
    unfold processOut
    rw [if_pos hp2, if_neg hne]
  · intro htr
    apply classify_sound hw hh
    by_contra hne
    have hb : processOut g p = blackPx := by
      unfold processOut
      rw [if_pos hp2, if_neg hne]
    rw [hb] at htr
    exact absurd htr (by decide)

/-- Claim C2 (witness): in `g3h` the fully transparent centre cell is
enclosed by opaque black cells touching no corner; it is not absorbed and
is rendered opaque black (hole filling). -/
theorem C2_witness : processOut g3h (1, 1) = blackPx :=
  (C2_unabsorbed_black g3h (by decide) (by decide) (1, 1) (by decide)).1 (by decide)

/-- Claim C3: every output pixel is exactly `(0,0,0,0)` or `(0,0,0,255)`,
and the output value at a cell is determined solely by that cell's label
(two grids agreeing on a cell's label agree on its output pixel). -/
theorem C3_binary_output :
    (∀ (g : Grid) (p : Pos), processOut g p = transparentPx ∨ processOut g p = blackPx) ∧
    (∀ (g₁ g₂ : Grid) (p : Pos), inRange g₁ p → inRange g₂ p →
      classify g₁ p = classify g₂ p → processOut g₁ p = processOut g₂ p) := by
  constructor
  · intro g p
    unfold processOut
    by_cases hr : p.1 < g.w ∧ p.2 < g.h
    · rw [if_pos hr]
      by_cases hc : classify g p = 1
      · rw [if_pos hc]; left; rfl
      · rw [if_neg hc]; right; rfl
    · rw [if_neg hr]; left; rfl
  · intro g₁ g₂ p h1 h2 hc
    have h1p : p.1 < g₁.w ∧ p.2 < g₁.h := h1
    have h2p : p.1 < g₂.w ∧ p.2 < g₂.h := h2
    unfold processOut
    rw [if_pos h1p, if_pos h2p, hc]

/-- Claim C3 (witness): concrete evaluation on the 1×1 grids. -/
theorem C3_witness :
    (processOut gB (0, 0) = transparentPx ∨ processOut gB (0, 0) = blackPx) ∧
      processOut gB (0, 0) = processOut g1 (0, 0) :=
  ⟨C3_binary_output.1 gB (0, 0),
    C3_binary_output.2 gB g1 (0, 0) (by decide) (by decide) (by decide)⟩

/-- Claim C4 (counterexample): on a failing load the code does not abort:
the blanket `except Exception` handler prints the diagnostic and
`process` returns normally (`None`) to its caller. -/
theorem C4_counterexample :
    (processModel none true).returnedNormally = true ∧
      (processModel none true).caught = some PyExc.loadError ∧
      (processModel none true).saved = none :=
  ⟨rfl, rfl, rfl⟩

/-- Claim C4 (amended): every invocation returns normally; an exception is
caught and printed exactly on the failing invocations (load failure,
zero-dimension image, save failure), and no output is saved on a failing
invocation — but the error is not propagated to the caller. -/
theorem C4_amended (inp : Option Grid) (ok : Bool) :
    (processModel inp ok).returnedNormally = true ∧
    ((processModel inp ok).caught.isSome = true ↔
      (inp = none ∨ (∃ g, inp = some g ∧ (g.w = 0 ∨ g.h = 0)) ∨ ok = false)) ∧
    ((processModel inp ok).caught.isSome = true → (processModel inp ok).saved = none) := by
  cases inp with
  | none =>
      refine ⟨rfl, ?_, fun _ => rfl⟩
      simp [processModel, processBody]
  | some g =>
      by_cases hz : g.w = 0 ∨ g.h = 0
      · refine ⟨?_, ?_, ?_⟩ <;> simp [processModel, processBody, hz]
      · cases ok with
        | false => refine ⟨?_, ?_, ?_⟩ <;> simp [processModel, processBody, hz]
        | true => refine ⟨?_, ?_, ?_⟩ <;> simp [processModel, processBody, hz]

/-- Claim C4 (witness): a failing save is caught and nothing is saved. -/
theorem C4_amended_witness : (processModel (some gB) false).saved = none :=
  (C4_amended (some gB) false).2.2 (by rfl)

/-- Claim C5 (counterexample): the metric is not a caller-choosable
parameter: on `g31` the implementation absorbs the middle pixel exactly as
the Euclidean instantiation does, while the Manhattan instantiation at the
same tolerance classifies it differently — so no per-call metric choice
exists in `process`, whose classifier takes only the grid. -/
theorem C5_counterexample :
    classify g31 (1, 0) = 1 ∧
      classifySpec Metric.euclidean 30 10 g31 (1, 0) = 1 ∧
      classifySpec Metric.manhattan 30 10 g31 (1, 0) = 0 ∧
      classifySpec Metric.manhattan 30 10 g31 (1, 0) ≠ classify g31 (1, 0) :=
  ⟨by decide, by decide, by decide, by decide⟩

/-- Claim C5 (amended): tolerance 30, alpha cutoff 10 and the Euclidean
metric are fixed constants of the implementation, not per-call
parameters: the source classifier coincides with the spec's configurable
classifier instantiated at exactly `(euclidean, 30, 10)`. -/
theorem C5_amended (g : Grid) : classify g = classifySpec Metric.euclidean 30 10 g :=
  (classifySpec_euclid g).symm

/-- Claim C6: on every grid with at least one row and one column
(including degenerate 1×1 or 1×n grids, where coinciding seeds are
skipped by the `status != 0` check), each of the four corner cells is
classified `Background` and rendered transparent, regardless of the
corner pixel's colour or alpha. -/
theorem C6_corners (g : Grid) (hw : 0 < g.w) (hh : 0 < g.h) :
    ∀ s ∈ seeds g, classify g s = 1 ∧ processOut g s = transparentPx := by
  intro s hs
  have h1 := classify_seeds g s hs
  refine ⟨h1, ?_⟩
  have hr : s.1 < g.w ∧ s.2 < g.h := seeds_inRange hw hh s hs
  unfold processOut
  rw [if_pos hr, if_pos h1]

/-- Claim C6 (witness): the degenerate 1×1 all-black grid, whose four
seeds coincide, still gets its (black, opaque) corner labelled
`Background` and rendered transparent. -/
theorem C6_witness : classify gB (0, 0) = 1 ∧ processOut gB (0, 0) = transparentPx :=
  C6_corners gB (by decide) (by decide) (0, 0) (by decide)

/-- Claim C7: an output image is handed to `out.save` at most once (the
`saved` field is an `Option`), and only on invocations where the load
succeeded, the grid was non-degenerate, classification finished and the
save succeeded; the saved image is the fully formed rendering of the
classified grid, and no exception was raised. -/
theorem C7_single_save (inp : Option Grid) (ok : Bool) (img : Grid)
    (hsave : (processModel inp ok).saved = some img) :
    ∃ g, inp = some g ∧ 0 < g.w ∧ 0 < g.h ∧ img = outputImage g ∧
      (processModel inp ok).caught = none := by
  cases inp with
  | none => simp [processModel, processBody] at hsave
  | some g =>
      by_cases hz : g.w = 0 ∨ g.h = 0
      · simp [processModel, processBody, hz] at hsave
      · cases ok with
        | false => simp [processModel, processBody, hz] at hsave
        | true =>
            have himg : outputImage g = img := by
              simpa [processModel, processBody, hz] using hsave
            push_neg at hz
            exact ⟨g, rfl, by omega, by omega, himg.symm,
              by simp [processModel, processBody, hz]⟩

/-- Claim C7 (witness): a successful run on the 1×1 white grid saves
exactly its rendered output. -/
theorem C7_witness :
    ∃ g, (some g1 : Option Grid) = some g ∧ 0 < g.w ∧ 0 < g.h ∧
      outputImage g1 = outputImage g ∧ (processModel (some g1) true).caught = none :=
  C7_single_save (some g1) true (outputImage g1) rfl

/-- Claim C8: across all four corner-seed fills, each cell is enqueued at
most once — the ghost enqueue log of the (provably equal) instrumented
classification is duplicate-free, contains only in-range cells, and
therefore has length at most `w·h`. -/
theorem C8_enqueue_once (g : Grid) (hw : 0 < g.w) (hh : 0 < g.h) :
    (classifyT g).1 = classify g ∧
    (classifyT g).2.Nodup ∧
    (∀ p ∈ (classifyT g).2, inRange g p) ∧
    (classifyT g).2.length ≤ g.w * g.h := by
  obtain ⟨hnd, hin⟩ := classifyT_trace g hw hh
  exact ⟨classifyT_fst g, hnd, hin, nodup_inRange_length hnd hin⟩

/-- Claim C8 (witness): the enqueue log of `g3` is duplicate-free and
within the 9-cell bound. -/
theorem C8_witness :
    (classifyT g3).1 = classify g3 ∧ (classifyT g3).2.Nodup ∧
      (∀ p ∈ (classifyT g3).2, inRange g3 p) ∧ (classifyT g3).2.length ≤ 9 :=
  C8_enqueue_once g3 (by decide) (by decide)

/-- Claim C9: aside from load and save, the pipeline is a pure function
of the decoded pixel grid: two grids with the same dimensions and the
same in-range pixels produce identical outputs at every coordinate (in
particular, two runs on the same decoded grid coincide). -/
theorem C9_pure_function (g₁ g₂ : Grid) (hw : 0 < g₁.w) (hh : 0 < g₁.h)
    (hew : g₁.w = g₂.w) (heh : g₁.h = g₂.h)
    (hpix : ∀ p, inRange g₁ p → g₁.pix p = g₂.pix p) :
    ∀ p, processOut g₁ p = processOut g₂ p := by
  intro p
  have hc := classify_congr hw hh hew heh hpix
  unfold processOut
  rw [hc, hew, heh]

/-- Claim C9 (witness): two 1×1 grids equal on their single in-range
pixel (but different out of range) render identically. -/
theorem C9_witness : processOut g1 (0, 0) = processOut g1b (0, 0) :=
  C9_pure_function g1 g1b (by decide) (by decide) rfl rfl
    (fun p hp => by
      have hp2 : p.1 < 1 ∧ p.2 < 1 := hp
      have hp0 : p = (0, 0) := by
        cases p
        simp only [Prod.mk.injEq]
        omega
      rw [hp0]
      rfl)
    (0, 0)

/-- Claim C10: the status of every cell is always 0 (`Unvisited`) or 1
(`Background`) — the value 2 from the source comment is never written; a
marked cell is never unmarked by any further BFS work; and the renderer
treats exactly the cells that are not `Background` as `NotBackground`
(opaque black). -/
theorem C10_status_invariant :
    (∀ (g : Grid) (p : Pos), classify g p = 0 ∨ classify g p = 1) ∧
    (∀ (g : Grid) (ref : Pixel) (fuel : Nat) (st : Pos → Nat) (q : List Pos) (p : Pos),
      st p = 1 → bfsRun g ref fuel st q p = 1) ∧
    (∀ (g : Grid) (p : Pos), inRange g p →
      (processOut g p = blackPx ↔ classify g p ≠ 1)) := by
  refine ⟨fun g p => classify_values g p,
    fun g ref fuel st q p hp => bfsRun_mono fuel st q p hp, ?_⟩
  intro g p hp
  have hp2 : p.1 < g.w ∧ p.2 < g.h := hp
  unfold processOut
  rw [if_pos hp2]
  constructor
  · intro hb hc
    rw [if_pos hc] at hb
    exact absurd hb (by decide)
  · intro hc
    rw [if_neg hc]

/-- Claim C10 (witness): concrete instances of monotonicity and of the
rendering rule on the 1×1 grid. -/
theorem C10_witness :
    bfsRun gB whiteO 3 (setSt (fun _ => 0) (0, 0) 1) [] (0, 0) = 1 ∧
      (processOut gB (0, 0) = blackPx ↔ classify gB (0, 0) ≠ 1) :=
  ⟨C10_status_invariant.2.1 gB whiteO 3 (setSt (fun _ => 0) (0, 0) 1) [] (0, 0) (by decide),
    C10_status_invariant.2.2 gB (0, 0) (by decide)⟩
